import Mathlib

/-!
Verification of the spreadflow-confviz level-of-detail graph contraction
pipeline (`spreadflow_confviz/__init__.py`, `ConfvizCommand.run`), in a
shallow embedding.  The components the pipeline calls but which live in
external packages (`spreadflow_core.graph`, the `toposort` library, the
`PortCollection` interface) are modelled from the specification (spec
sections 4.1, 4.2 and 4.3); everything else is translated directly from
the source of `run` (lines 101-183) and `_strip_angle_brackets`
(lines 47-50).
-/

namespace Confviz

/-- A hierarchy node: `some c` is a component (identified by a natural
number), `none` is the Python `None` sentinel that `run` appends as the
child of every non-collection component when building `comp_tree`
(line 111 of the source). -/
abbrev Node := Option Nat

/-- Modelled from the spec: the `PortCollection` interface of
`spreadflow_core.component` as consumed by `run`.  A component either is a
port collection (`isColl` true, with `ins`/`outs` lists of member
components) or a plain leaf port. -/
structure World where
  isColl : Nat → Bool
  ins : Nat → List Nat
  outs : Nat → List Nat

section GraphDefs

variable {α : Type*} [DecidableEq α]

/-- Modelled from the spec (section 4.1): `spreadflow_core.graph.digraph`
groups an edge list into an adjacency mapping source to set of sinks;
duplicate pairs collapse, so as an edge set it is the deduplicated list. -/
def digraph (edges : List (α × α)) : Finset (α × α) := edges.toFinset

/-- Modelled from the spec (section 4.1): `spreadflow_core.graph.reverse`
produces the sink-to-sources adjacency, i.e. flips every edge. -/
def reverse (g : Finset (α × α)) : Finset (α × α) := g.image Prod.swap

/-- Modelled from the spec (section 4.1): `spreadflow_core.graph.vertices`,
the union of all sources and all sinks. -/
def vertices (g : Finset (α × α)) : Finset α := g.image Prod.fst ∪ g.image Prod.snd

/-- The set of successors of `u`: the value `g[u]` of the adjacency dict,
defaulting to the empty set (`g.get(u, set())` in the source). -/
def succs (g : Finset (α × α)) (u : α) : Finset α :=
  (g.filter (fun e => e.1 = u)).image Prod.snd

/-- One rewiring step of the contraction fixpoint: follow one further edge
out of any already-reached node that is removed (not kept). -/
def expandThrough (g : Finset (α × α)) (keep : α → Bool) (t : Finset α) : Finset α :=
  t ∪ (g.filter (fun e => e.1 ∈ t ∧ keep e.1 = false)).image Prod.snd

/-- Nodes reachable from `u` by one edge of `g` followed by any number of
edges leaving removed nodes.  `g.card` iterations suffice because each
strict growth step adds a sink of `g`. -/
def reachThrough (g : Finset (α × α)) (keep : α → Bool) (u : α) : Finset α :=
  (expandThrough g keep)^[g.card] (succs g u)

/-- Modelled from the spec (section 4.1): `spreadflow_core.graph.contract`
removes every node failing `keep`, rewiring predecessors to successors
recursively until fixpoint; rewiring never introduces a self-loop (`p = s`
pairs are skipped), while direct edges between kept nodes pass through.
The result is the edge set between kept nodes. -/
def contract (g : Finset (α × α)) (keep : α → Bool) : Finset (α × α) :=
  (vertices g ×ˢ vertices g).filter
    (fun e => keep e.1 = true ∧ keep e.2 = true ∧ e.2 ∈ reachThrough g keep e.1 ∧
      (e ∈ g ∨ e.1 ≠ e.2))

/-- Union of a list of finite sets (used for toposort coverage and for
`levels[self.level+1:]`). -/
def unionAll (L : List (Finset α)) : Finset α := L.foldr (· ∪ ·) ∅

/-- Modelled from the spec (section 4.3) and the `toposort` library: the
items of `remaining` all of whose dependencies (pairs `(x, y) ∈ R` read as
"`x` depends on `y`"; self-dependencies are ignored, as the library
discards them) have already been emitted. -/
def ready (R : Finset (α × α)) (remaining : Finset α) : Finset α :=
  remaining.filter (fun x => ∀ y ∈ remaining, y ≠ x → (x, y) ∉ R)

/-- Modelled from the spec (section 4.3): one round of Kahn-style leveling
per fuel step; `none` models the `ValueError` the library raises on
circular dependencies. -/
def topoGo (R : Finset (α × α)) : Nat → Finset α → Option (List (Finset α))
  | 0, remaining => if remaining = ∅ then some [] else none
  | fuel + 1, remaining =>
    if remaining = ∅ then some []
    else if ready R remaining = ∅ then none
    else (topoGo R fuel (remaining \ ready R remaining)).map
      (fun rest => ready R remaining :: rest)

/-- Modelled from the spec (section 4.3): `list(toposort(parents))`, the
ordered depth levels of the dependency relation `R`.  Items appearing only
as dependencies are included (they form part of `vertices R`). -/
def toposort (R : Finset (α × α)) : Option (List (Finset α)) :=
  topoGo R (vertices R).card (vertices R)

end GraphDefs

/-- The component list `set(list(ins) + list(outs) + list(components))` is
drawn from (line 105): the connection sinks, the connection sources and the
declared components. -/
def baseList (conns : List (Nat × Nat)) (comps : List Nat) : List Nat :=
  conns.map Prod.snd ++ conns.map Prod.fst ++ comps

/-- `set(list(ins) + list(outs) + list(components))` of line 105. -/
def compSet (conns : List (Nat × Nat)) (comps : List Nat) : Finset Nat :=
  (baseList conns comps).toFinset

/-- `set(comp.ins + comp.outs)` of line 107. -/
def subcomps (w : World) (c : Nat) : Finset Nat := (w.ins c ++ w.outs c).toFinset

/-- `comp_tree` (lines 104-111): for a port collection, an edge to every
member except itself; for anything else, an edge to `None`.
`children = graph.digraph(comp_tree)` is this same edge set. -/
def compTree (w : World) (cs : Finset Nat) : Finset (Node × Node) :=
  cs.biUnion (fun c =>
    if w.isColl c then ((subcomps w c).erase c).image (fun s => ((some c : Node), (some s : Node)))
    else {((some c : Node), (none : Node))})

/-- `parents = graph.reverse(children)` (line 114), as an edge set of
(child, parent) pairs. -/
def parentsRel (w : World) (cs : Finset Nat) : Finset (Node × Node) :=
  reverse (compTree w cs)

/-- The recorded parent set of a node, i.e. the value `parents[x]` (empty
when `x` is not a key of the dict). -/
def parentsOf (R : Finset (Node × Node)) (x : Node) : Finset Node := succs R x

/-- A dict lookup on `parents`: `some s` when `x` is a key (with a
necessarily nonempty value `s`), `none` when it is absent.  Used to model
the asymmetric defaults of line 139 (`parents.get(comp, [])`, an empty
list) versus line 142 (`parents.get(peer)`, `None`): in Python
`[] != None`, `[] != set(...)` and `None != set(...)`, so the comparison
of line 142 succeeds only when both lookups find a key and the values are
equal. -/
def pGet (R : Finset (Node × Node)) (x : Node) : Option (Finset Node) :=
  if parentsOf R x = ∅ then none else some (parentsOf R x)

/-- The Python equality test `my_parents == parents.get(peer)` of
line 142, with `my_parents = parents.get(comp, [])`. -/
def pyParentsEq (R : Finset (Node × Node)) (x y : Node) : Bool :=
  (pGet R x).isSome && decide (pGet R x = pGet R y)

/-- `levels[i]`, defaulting to the empty set beyond the end (all the
`if self.level < len(levels)` guards in the source make out-of-range
access yield nothing). -/
def levelAt (ℓ : List (Finset Node)) (i : Nat) : Finset Node := ℓ.getD i ∅

/-- `self.level = min(self.level, len(levels))` (line 117). -/
def effLevel (req : Nat) (ℓ : List (Finset Node)) : Nat := min req ℓ.length

/-- `isinstance(comp, PortCollection)` lifted to hierarchy nodes
(`None` is not a port collection). -/
def isCollN (w : World) : Node → Bool
  | some c => w.isColl c
  | none => false

/-- The virtual-completion edges contributed by a single hierarchy node
(lines 123-127): nothing unless it is a port collection, else every
in-port/out-port pair excluding identical pairs
(`if port_in is not port_out`). -/
def vcOf (w : World) : Node → Finset (Nat × Nat)
  | some c =>
    if w.isColl c then
      ((w.ins c).toFinset ×ˢ (w.outs c).toFinset).filter (fun e => e.1 ≠ e.2)
    else ∅
  | none => ∅

/-- `extra_links` (lines 119-127): for every port collection at exactly
`levels[self.level]`, an edge from each of its in-ports to each of its
out-ports, excluding identical pairs. -/
def extraLinks (w : World) (ℓ : List (Finset Node)) (lvl : Nat) : Finset (Nat × Nat) :=
  (levelAt ℓ lvl).biUnion (vcOf w)

/-- `g = graph.digraph(connections + extra_links)` (line 130). -/
def flowGraph (w : World) (conns : List (Nat × Nat)) (ℓ : List (Finset Node))
    (lvl : Nat) : Finset (Nat × Nat) :=
  conns.toFinset ∪ extraLinks w ℓ lvl

/-- `g.get(comp, set()).union(rg.get(comp, set()))` (line 140): the graph
neighbours of a component in either direction. -/
def nbrs (g : Finset (Nat × Nat)) (c : Nat) : Finset Nat :=
  succs g c ∪ succs (reverse g) c

/-- Neighbours of a hierarchy node: the `None` sentinel never occurs in
the flow graph, so it has none. -/
def nbrsN (g : Finset (Nat × Nat)) : Node → Finset Nat
  | some c => nbrs g c
  | none => ∅

/-- Lines 135-147: a non-collection at exactly `levels[self.level]` is
ignorable when the loop over its peers never breaks, i.e. when every peer
passes the parent-dict comparison of line 142 (vacuously so when it has no
peers). -/
def filterIgnorable (w : World) (R : Finset (Node × Node)) (g : Finset (Nat × Nat))
    (ℓ : List (Finset Node)) (lvl : Nat) : Finset Node :=
  (levelAt ℓ lvl).filter (fun oc =>
    isCollN w oc = false ∧ ∀ peer ∈ nbrsN g oc, pyParentsEq R oc (some peer) = true)

/-- `ignorable_comps` (lines 135-151): the boundary-level filter plus
everything in `levels[self.level+1:]`. -/
def ignorableSet (w : World) (R : Finset (Node × Node)) (g : Finset (Nat × Nat))
    (ℓ : List (Finset Node)) (lvl : Nat) : Finset Node :=
  filterIgnorable w R g ℓ lvl ∪ unionAll (ℓ.drop (lvl + 1))

/-- The keep predicate `lambda n: n not in ignorable_comps` of line 155. -/
def keepFun (ign : Finset Node) (n : Nat) : Bool := decide ((some n : Node) ∉ ign)

/-- `g = graph.contract(g, lambda n: n not in ignorable_comps)`
(lines 154-155), with `g` and `ignorable_comps` derived from the same
levels. -/
def contractedGraph (w : World) (R : Finset (Node × Node))
    (conns : List (Nat × Nat)) (ℓ : List (Finset Node)) (lvl : Nat) :
    Finset (Nat × Nat) :=
  contract (flowGraph w conns ℓ lvl)
    (keepFun (ignorableSet w R (flowGraph w conns ℓ lvl) ℓ lvl))

/-- `visible_ports = set(ins + outs)` (line 161): all connection
endpoints. -/
def visiblePorts (conns : List (Nat × Nat)) : Finset Nat :=
  (conns.map Prod.fst ++ conns.map Prod.snd).toFinset

/-- A cluster as assembled in lines 159-183: the owning collection, the
member nodes drawn (`sg.node`, line 176) and the owners of the attached
child clusters (`sg.subgraph(subgraphs.pop(port))`, line 178). -/
structure Cl where
  owner : Nat
  nodes : Finset Nat
  childs : Finset Nat
deriving DecidableEq

/-- A deterministic enumeration of every component that can occur in a
toposort level: the base components plus all members of collections among
them.  Python iterates its (unordered) sets; iteration order does not
affect the assembled cluster structure on forest inputs, so any fixed
enumeration is a faithful rendering. -/
def masterList (w : World) (conns : List (Nat × Nat)) (comps : List Nat) : List Nat :=
  baseList conns comps ++
    (baseList conns comps).flatMap (fun c => if w.isColl c then w.ins c ++ w.outs c else [])

/-- `for c in level: if isinstance(c, PortCollection)` (lines 163-164):
the port collections of one level, in the fixed enumeration order. -/
def collsOfLevel (w : World) (conns : List (Nat × Nat)) (comps : List Nat)
    (s : Finset Node) : List Nat :=
  (masterList w conns comps).dedup.filter
    (fun c => decide ((some c : Node) ∈ s) && w.isColl c)

/-- `for level in reversed(levels[:self.level])` (line 162) flattened into
one processing order. -/
def clusterOrder (w : World) (conns : List (Nat × Nat)) (comps : List Nat)
    (ℓ : List (Finset Node)) (lvl : Nat) : List Nat :=
  ((ℓ.take lvl).reverse).flatMap (collsOfLevel w conns comps)

/-- Lines 164-180 for a single collection `c`: skip it when none of its
members is a connection endpoint; otherwise create its cluster, drawing
the non-ignorable member ports, attaching (and popping from the pending
pool) any member that already owns a cluster.  The state is the list of
all clusters created so far together with the keys of the pending pool. -/
def processColl (w : World) (visible : Finset Nat) (ign : Finset Node)
    (st : List Cl × Finset Nat) (c : Nat) : List Cl × Finset Nat :=
  if subcomps w c ∩ visible = ∅ then st
  else
    (st.1 ++ [⟨c, (subcomps w c ∩ visible).filter (fun p => (some p : Node) ∉ ign),
        (subcomps w c ∩ visible) ∩ st.2⟩],
      (st.2 \ ((subcomps w c ∩ visible) ∩ st.2)) ∪ {c})

/-- The whole cluster-assembly loop of lines 160-180.  The first component
lists every cluster created, the second the owners of the top-level
clusters still in `subgraphs` (those emitted on lines 182-183). -/
def buildClusters (w : World) (conns : List (Nat × Nat)) (comps : List Nat)
    (visible : Finset Nat) (ign : Finset Node) (ℓ : List (Finset Node))
    (lvl : Nat) : List Cl × Finset Nat :=
  (clusterOrder w conns comps ℓ lvl).foldl (processColl w visible ign) ([], ∅)

/-- The abstract output of `run`: the contracted edge set (rendered on
lines 186-188), the clusters created and the owners of the emitted
top-level clusters. -/
structure Output where
  graph : Finset (Nat × Nat)
  clusters : List Cl
  topClusters : Finset Nat
deriving DecidableEq

/-- The part of `run` after a successful `toposort` call, with levels `ℓ`. -/
def assemble (w : World) (conns : List (Nat × Nat)) (comps : List Nat)
    (req : Nat) (ℓ : List (Finset Node)) : Output :=
  { graph := contractedGraph w (parentsRel w (compSet conns comps)) conns ℓ (effLevel req ℓ)
    clusters := (buildClusters w conns comps (visiblePorts conns)
      (ignorableSet w (parentsRel w (compSet conns comps))
        (flowGraph w conns ℓ (effLevel req ℓ)) ℓ (effLevel req ℓ)) ℓ (effLevel req ℓ)).1
    topClusters := (buildClusters w conns comps (visiblePorts conns)
      (ignorableSet w (parentsRel w (compSet conns comps))
        (flowGraph w conns ℓ (effLevel req ℓ)) ℓ (effLevel req ℓ)) ℓ (effLevel req ℓ)).2 }

/-- `ConfvizCommand.run` from line 101 on, for a requested detail level
`req`: `outs, ins = zip(*connections)` raises `ValueError` on an empty
connection list (line 101) before anything else; `toposort` raises on
circular parent links (line 115); otherwise the reduced graph and the
clusters are produced. -/
def runModel (w : World) (conns : List (Nat × Nat)) (comps : List Nat)
    (req : Nat) : Except String Output :=
  if conns = [] then
    Except.error "ValueError: not enough values to unpack (expected 2, got 0)"
  else
    match toposort (parentsRel w (compSet conns comps)) with
    | none => Except.error "ValueError: Cyclic dependencies exist"
    | some ℓ => Except.ok (assemble w conns comps req ℓ)

/-- The output of a successful run, `none` on the error paths. -/
def runOut (w : World) (conns : List (Nat × Nat)) (comps : List Nat)
    (req : Nat) : Option Output :=
  (runModel w conns comps req).toOption

/-- `_strip_angle_brackets` (lines 47-50): while the text both starts with
a left and ends with a right angle bracket, drop the first and last
character (`text[1:-1]`).  Totality of this definition witnesses
termination: each pass shortens the string by two, and a one-character
string never satisfies both tests. -/
def stripAngleBrackets (s : List Char) : List Char :=
  if _h : s.head? = some '<' ∧ s.getLast? = some '>' then
    stripAngleBrackets ((s.drop 1).dropLast)
  else s
termination_by s.length
decreasing_by
  have hne : s ≠ [] := by
    intro he
    rw [he] at _h
    simp at _h
  have hlen : 0 < s.length := List.length_pos.mpr hne
  simp only [List.length_dropLast, List.length_drop]
  omega

/-! ### Concrete instances used by witnesses and counterexamples -/

/-- A world with no port collections at all. -/
def wFlat : World := ⟨fun _ => false, fun _ => [], fun _ => []⟩

/-- The spec scenario forest: `A = 0` with children `B = 1`, `C = 2`;
`B` has ports `p1 = 3` (in) and `p2 = 4` (out); `C` has the single port
`p3 = 5` (both in and out).  The single connection is `p1 → p3`. -/
def wScen : World :=
  ⟨fun c => c < 3,
   fun c => if c = 0 then [1] else if c = 1 then [3] else if c = 2 then [5] else [],
   fun c => if c = 0 then [2] else if c = 1 then [4] else if c = 2 then [5] else []⟩

/-- One collection `0` with in-port `1` and out-port `2`. -/
def w9 : World :=
  ⟨fun c => c = 0, fun c => if c = 0 then [1] else [], fun c => if c = 0 then [2] else []⟩

/-- Two collections `0` and `1` that each list the other as a member: a
cycle in the parent links. -/
def wCyc : World :=
  ⟨fun c => c < 2, fun c => if c = 0 then [1] else if c = 1 then [0] else [],
   fun _ => []⟩

/-- Two collections `0` and `1` that both list the leaf `2` as a member:
the leaf has two different recorded parents. -/
def wConf : World :=
  ⟨fun c => c < 2, fun c => if c < 2 then [2] else [], fun _ => []⟩

/-- The toposort levels of `wFlat` with the single connection `(0, 1)`. -/
def lvFlat : List (Finset Node) := [{some 1, some 0}, {none}]

/-- The toposort levels of the scenario forest `wScen`. -/
def lvScen : List (Finset Node) := [{some 0}, {some 1, some 2}, {some 4, some 5, some 3}, {none}]

/-- The toposort levels of `w9` with the single connection `(1, 2)`. -/
def lvNine : List (Finset Node) := [{some 0}, {some 2, some 1}, {none}]

/-! ### Lemmas about the graph primitives -/

section GraphLemmas

variable {α : Type*} [DecidableEq α]

theorem mem_succs {g : Finset (α × α)} {u v : α} : v ∈ succs g u ↔ (u, v) ∈ g := by
  constructor
  · intro h
    rcases Finset.mem_image.mp h with ⟨e, he, hev⟩
    rcases Finset.mem_filter.mp he with ⟨heg, heu⟩
    have : e = (u, v) := by
      cases e
      simp only [Prod.mk.injEq]
      exact ⟨heu, hev⟩
    simpa [this] using heg
  · intro h
    exact Finset.mem_image.mpr ⟨(u, v), Finset.mem_filter.mpr ⟨h, rfl⟩, rfl⟩

theorem mem_vertices_left {g : Finset (α × α)} {e : α × α} (h : e ∈ g) :
    e.1 ∈ vertices g :=
  Finset.mem_union_left _ (Finset.mem_image.mpr ⟨e, h, rfl⟩)

theorem mem_vertices_right {g : Finset (α × α)} {e : α × α} (h : e ∈ g) :
    e.2 ∈ vertices g :=
  Finset.mem_union_right _ (Finset.mem_image.mpr ⟨e, h, rfl⟩)

theorem mem_vertices_iff {g : Finset (α × α)} {x : α} :
    x ∈ vertices g ↔ ∃ e ∈ g, e.1 = x ∨ e.2 = x := by
  unfold vertices
  simp only [Finset.mem_union, Finset.mem_image]
  constructor
  · rintro (⟨e, he, hx⟩ | ⟨e, he, hx⟩)
    · exact ⟨e, he, Or.inl hx⟩
    · exact ⟨e, he, Or.inr hx⟩
  · rintro ⟨e, he, hx | hx⟩
    · exact Or.inl ⟨e, he, hx⟩
    · exact Or.inr ⟨e, he, hx⟩

theorem mem_vertices_reverse {g : Finset (α × α)} {x : α} :
    x ∈ vertices (reverse g) ↔ x ∈ vertices g := by
  rw [mem_vertices_iff, mem_vertices_iff]
  constructor
  · rintro ⟨e, he, hx⟩
    rcases Finset.mem_image.mp he with ⟨f, hf, hfe⟩
    subst hfe
    refine ⟨f, hf, ?_⟩
    rcases hx with h | h
    · exact Or.inr (by simpa using h)
    · exact Or.inl (by simpa using h)
  · rintro ⟨e, he, hx⟩
    refine ⟨e.swap, Finset.mem_image.mpr ⟨e, he, rfl⟩, ?_⟩
    rcases hx with h | h
    · exact Or.inr (by simpa using h)
    · exact Or.inl (by simpa using h)

theorem mem_contract {g : Finset (α × α)} {keep : α → Bool} {e : α × α} :
    e ∈ contract g keep ↔
      e.1 ∈ vertices g ∧ e.2 ∈ vertices g ∧ keep e.1 = true ∧ keep e.2 = true ∧
        e.2 ∈ reachThrough g keep e.1 ∧ (e ∈ g ∨ e.1 ≠ e.2) := by
  unfold contract
  rw [Finset.mem_filter, Finset.mem_product]
  tauto

theorem expandThrough_of_all_kept {g : Finset (α × α)} {keep : α → Bool}
    (hall : ∀ x ∈ vertices g, keep x = true) (t : Finset α) :
    expandThrough g keep t = t := by
  unfold expandThrough
  have hfil : g.filter (fun e => e.1 ∈ t ∧ keep e.1 = false) = ∅ := by
    apply Finset.filter_eq_empty_iff.mpr
    intro e he
    have := hall e.1 (mem_vertices_left he)
    simp [this]
  rw [hfil]
  simp

theorem reachThrough_of_all_kept {g : Finset (α × α)} {keep : α → Bool}
    (hall : ∀ x ∈ vertices g, keep x = true) (u : α) :
    reachThrough g keep u = succs g u := by
  unfold reachThrough
  exact Function.iterate_fixed (expandThrough_of_all_kept hall _) _

/-- When every vertex of `g` is kept, contraction changes nothing. -/
theorem contract_of_all_kept {g : Finset (α × α)} {keep : α → Bool}
    (hall : ∀ x ∈ vertices g, keep x = true) :
    contract g keep = g := by
  ext e
  rw [mem_contract, reachThrough_of_all_kept hall]
  constructor
  · rintro ⟨-, -, -, -, hreach, -⟩
    have : (e.1, e.2) ∈ g := mem_succs.mp hreach
    simpa using this
  · intro he
    refine ⟨mem_vertices_left he, mem_vertices_right he,
      hall _ (mem_vertices_left he), hall _ (mem_vertices_right he), ?_, Or.inl he⟩
    exact mem_succs.mpr (by simpa using he)

/-- Every vertex surviving contraction satisfies the keep predicate:
removed nodes are gone from the output, not remapped. -/
theorem keep_of_mem_vertices_contract {g : Finset (α × α)} {keep : α → Bool} {x : α}
    (hx : x ∈ vertices (contract g keep)) : keep x = true := by
  rcases mem_vertices_iff.mp hx with ⟨e, he, hex | hex⟩
  · rcases mem_contract.mp he with ⟨-, -, h1, -⟩
    rwa [hex] at h1
  · rcases mem_contract.mp he with ⟨-, -, -, h2, -⟩
    rwa [hex] at h2

theorem subset_unionAll {L : List (Finset α)} {s : Finset α} (hs : s ∈ L) :
    s ⊆ unionAll L := by
  induction L with
  | nil => cases hs
  | cons t L ih =>
    rcases List.mem_cons.mp hs with h | h
    · subst h
      exact Finset.subset_union_left
    · exact (ih h).trans Finset.subset_union_right

theorem topoGo_some_union {R : Finset (α × α)} :
    ∀ (fuel : Nat) (remaining : Finset α) (L : List (Finset α)),
      topoGo R fuel remaining = some L → unionAll L = remaining := by
  intro fuel
  induction fuel with
  | zero =>
    intro remaining L h
    rw [topoGo] at h
    split_ifs at h with h1
    · cases h
      simp [unionAll, h1]
  | succ n ih =>
    intro remaining L h
    rw [topoGo] at h
    split_ifs at h with h1 h2
    · cases h
      simp [unionAll, h1]
    · rcases Option.map_eq_some'.mp h with ⟨rest, hrest, hL⟩
      subst hL
      have hrd : ready R remaining ⊆ remaining := Finset.filter_subset _ _
      have := ih _ _ hrest
      show ready R remaining ∪ unionAll rest = remaining
      rw [this]
      exact Finset.union_sdiff_of_subset hrd

/-- A node with a (non-self) dependency never sits in the first level: on
success it appears in the union of the later levels. -/
theorem toposort_dep {R : Finset (α × α)} {L : List (Finset α)}
    (hL : toposort R = some L) {x y : α} (hxy : (x, y) ∈ R) (hne : y ≠ x) :
    x ∈ unionAll (L.drop 1) := by
  have hx : x ∈ vertices R := mem_vertices_left hxy
  have hy : y ∈ vertices R := mem_vertices_right hxy
  unfold toposort at hL
  rcases hc : (vertices R).card with - | n
  · exact absurd (Finset.card_eq_zero.mp hc ▸ hx) (Finset.not_mem_empty x)
  · rw [hc, topoGo] at hL
    split_ifs at hL with h1 h2
    · exact absurd (h1 ▸ hx) (Finset.not_mem_empty x)
    · rcases Option.map_eq_some'.mp hL with ⟨rest, hrest, hLeq⟩
      subst hLeq
      have hxnr : x ∉ ready R (vertices R) := by
        intro hmem
        exact (Finset.mem_filter.mp hmem).2 y hy hne hxy
      have hxs : x ∈ vertices R \ ready R (vertices R) :=
        Finset.mem_sdiff.mpr ⟨hx, hxnr⟩
      have := topoGo_some_union _ _ _ hrest
      simpa [this] using hxs

/-- A set of nodes each depending on another member of the set (a cycle in
the dependency relation, in particular) makes the traversal fail. -/
theorem topoGo_cycle {R : Finset (α × α)} {S : Finset α} (hS : S.Nonempty)
    (hcyc : ∀ x ∈ S, ∃ y ∈ S, y ≠ x ∧ (x, y) ∈ R) :
    ∀ (fuel : Nat) (remaining : Finset α), S ⊆ remaining →
      topoGo R fuel remaining = none := by
  intro fuel
  induction fuel with
  | zero =>
    intro remaining hsub
    rw [topoGo, if_neg]
    exact (hS.mono hsub).ne_empty
  | succ n ih =>
    intro remaining hsub
    have hne : remaining ≠ ∅ := (hS.mono hsub).ne_empty
    have hdisj : ∀ x ∈ S, x ∉ ready R remaining := by
      intro x hx hmem
      rcases hcyc x hx with ⟨y, hyS, hyx, hxy⟩
      exact (Finset.mem_filter.mp hmem).2 y (hsub hyS) hyx hxy
    rw [topoGo, if_neg hne]
    by_cases hrd : ready R remaining = ∅
    · rw [if_pos hrd]
    · rw [if_neg hrd]
      have hsub' : S ⊆ remaining \ ready R remaining := fun x hx =>
        Finset.mem_sdiff.mpr ⟨hsub hx, hdisj x hx⟩
      rw [ih _ hsub']
      rfl

theorem toposort_cycle {R : Finset (α × α)} {S : Finset α} (hS : S.Nonempty)
    (hcyc : ∀ x ∈ S, ∃ y ∈ S, y ≠ x ∧ (x, y) ∈ R) :
    toposort R = none := by
  have hsub : S ⊆ vertices R := by
    intro x hx
    rcases hcyc x hx with ⟨y, -, -, hxy⟩
    exact mem_vertices_left hxy
  exact topoGo_cycle hS hcyc _ _ hsub

end GraphLemmas

/-! ### Lemmas about the engine -/

/-- `comp_tree` never records a self-edge: collections skip themselves
(`comp is not subcomp`, line 108) and `None` is not a component. -/
theorem compTree_ne {w : World} {cs : Finset Nat} {e : Node × Node}
    (he : e ∈ compTree w cs) : e.1 ≠ e.2 := by
  rcases Finset.mem_biUnion.mp he with ⟨c, -, hc⟩
  by_cases h : w.isColl c
  · rw [if_pos h] at hc
    rcases Finset.mem_image.mp hc with ⟨s, hs, hse⟩
    have hsc : s ≠ c := (Finset.mem_erase.mp hs).1
    rw [← hse]
    simp only [ne_eq, Option.some.injEq]
    exact fun hcs => hsc hcs.symm
  · rw [if_neg h] at hc
    have : e = ((some c : Node), (none : Node)) := Finset.mem_singleton.mp hc
    rw [this]
    simp

/-- The parent relation never records a self-parent. -/
theorem parentsRel_ne {w : World} {cs : Finset Nat} {x y : Node}
    (h : (x, y) ∈ parentsRel w cs) : y ≠ x := by
  rcases Finset.mem_image.mp h with ⟨e, he, hswap⟩
  have hne := compTree_ne he
  intro hyx
  apply hne
  have h1 : e.2 = x := by
    have := congrArg Prod.fst hswap
    simpa using this
  have h2 : e.1 = y := by
    have := congrArg Prod.snd hswap
    simpa using this
  rw [h1, h2, hyx]

/-- Every component occurring in the parent relation is listed in the
deterministic master enumeration. -/
theorem masterList_covers {w : World} {conns : List (Nat × Nat)} {comps : List Nat}
    {c : Nat} (h : (some c : Node) ∈ vertices (compTree w (compSet conns comps))) :
    c ∈ masterList w conns comps := by
  rcases mem_vertices_iff.mp h with ⟨e, he, hx⟩
  rcases Finset.mem_biUnion.mp he with ⟨a, ha, hae⟩
  have haBase : a ∈ baseList conns comps := List.mem_toFinset.mp ha
  by_cases hcoll : w.isColl a
  · rw [if_pos hcoll] at hae
    rcases Finset.mem_image.mp hae with ⟨s, hs, hse⟩
    subst hse
    rcases hx with hx | hx
    · have hac : a = c := by simpa using hx
      subst hac
      exact List.mem_append_left _ haBase
    · have hsc : s = c := by simpa using hx
      subst hsc
      have hsins : s ∈ w.ins a ++ w.outs a :=
        List.mem_toFinset.mp (Finset.mem_of_mem_erase hs)
      refine List.mem_append_right _ ?_
      rw [List.mem_flatMap]
      exact ⟨a, haBase, by rw [if_pos hcoll]; exact hsins⟩
  · rw [if_neg hcoll] at hae
    have hee : e = ((some a : Node), (none : Node)) := Finset.mem_singleton.mp hae
    subst hee
    rcases hx with hx | hx
    · have hac : a = c := by simpa using hx
      subst hac
      exact List.mem_append_left _ haBase
    · simp at hx

/-- The owners of all clusters created by the assembly loop are exactly
the processed collections whose member set meets the visible ports,
independent of the pool state threaded through. -/
theorem foldl_processColl_owners (w : World) (visible : Finset Nat) (ign : Finset Node) :
    ∀ (L : List Nat) (st : List Cl × Finset Nat),
      (L.foldl (processColl w visible ign) st).1.map Cl.owner =
        st.1.map Cl.owner ++ L.filter (fun c => decide (subcomps w c ∩ visible ≠ ∅)) := by
  intro L
  induction L with
  | nil =>
    intro st
    simp
  | cons c L ih =>
    intro st
    rw [List.foldl_cons]
    by_cases hp : subcomps w c ∩ visible = ∅
    · have hstep : processColl w visible ign st c = st := by
        unfold processColl
        rw [if_pos hp]
      rw [hstep, ih st, List.filter_cons]
      simp [hp]
    · have hstep : (processColl w visible ign st c).1 = st.1 ++
          [⟨c, (subcomps w c ∩ visible).filter (fun p => (some p : Node) ∉ ign),
            (subcomps w c ∩ visible) ∩ st.2⟩] := by
        unfold processColl
        rw [if_neg hp]
      rw [ih _, hstep, List.filter_cons]
      simp [hp, List.map_append]

/-- The result of `_strip_angle_brackets` never again satisfies the loop
condition. -/
theorem stripAngleBrackets_not_bracketed (s : List Char) :
    ¬((stripAngleBrackets s).head? = some '<' ∧
      (stripAngleBrackets s).getLast? = some '>') := by
  induction s using stripAngleBrackets.induct with
  | case1 s h ih =>
    rw [stripAngleBrackets, dif_pos h]
    exact ih
  | case2 s h =>
    rw [stripAngleBrackets, dif_neg h]
    exact h

/-- `_strip_angle_brackets` leaves a string failing the loop condition
unchanged. -/
theorem stripAngleBrackets_eq_self {s : List Char}
    (h : ¬(s.head? = some '<' ∧ s.getLast? = some '>')) :
    stripAngleBrackets s = s := by
  rw [stripAngleBrackets, dif_neg h]

/-! ### Claim theorems -/

/-- C1 (amended): the LOD contraction removes every node of the ignorable
set (in particular every node deeper than the boundary level) from the
output entirely, rewiring through it — it does not map it to its ancestor
at the boundary depth: every vertex of the contracted graph is
non-ignorable. -/
theorem c1_beyond_level_removed (w : World) (R : Finset (Node × Node))
    (conns : List (Nat × Nat)) (ℓ : List (Finset Node)) (lvl x : Nat)
    (hx : x ∈ vertices (contractedGraph w R conns ℓ lvl)) :
    (some x : Node) ∉ ignorableSet w R (flowGraph w conns ℓ lvl) ℓ lvl := by
  unfold contractedGraph at hx
  have hkeep := keep_of_mem_vertices_contract hx
  simpa [keepFun] using hkeep

/-- C1 (witness): on the flat input with the single connection `(0, 1)` at
detail level 1, node `0` survives contraction and is therefore not
ignorable. -/
theorem c1_witness :
    (some 0 : Node) ∉ ignorableSet wFlat (parentsRel wFlat (compSet [(0, 1)] []))
      (flowGraph wFlat [(0, 1)] lvFlat 1) lvFlat 1 :=
  c1_beyond_level_removed wFlat (parentsRel wFlat (compSet [(0, 1)] [])) [(0, 1)] lvFlat 1 0
    (by decide)

/-- C1 (counterexample): on the spec scenario forest `A = 0` over
`B = 1, C = 2` with ports `p1 = 3, p2 = 4, p3 = 5` and connection
`p1 → p3`, the levels are as claimed (`B`, `C` at depth 1), yet
contraction at `maxdepth = 1` yields an empty graph: the output node set
is not `{B, C}` and no edge `B → C` is produced. -/
theorem c1_counterexample :
    toposort (parentsRel wScen (compSet [(3, 5)] [0, 1, 2])) = some lvScen ∧
    runOut wScen [(3, 5)] [0, 1, 2] 1 = some ⟨∅, [], ∅⟩ := by decide

/-- C2 (amended): a non-collection node sitting at `levels[maxdepth]` is
put in the ignorable set — and is hence absent from the contracted
graph — exactly when every one of its flow-graph neighbours passes the
parent-dict comparison of line 142 (which requires the node's own parent
lookup to find a key); this theorem proves the elision direction. -/
theorem c2_boundary_leaf_elided (w : World) (R : Finset (Node × Node))
    (conns : List (Nat × Nat)) (ℓ : List (Finset Node)) (lvl N : Nat)
    (hmem : (some N : Node) ∈ levelAt ℓ lvl)
    (hleaf : isCollN w (some N) = false)
    (hpeers : ∀ peer ∈ nbrsN (flowGraph w conns ℓ lvl) (some N),
      pyParentsEq R (some N) (some peer) = true) :
    N ∉ vertices (contractedGraph w R conns ℓ lvl) := by
  intro hx
  unfold contractedGraph at hx
  have hkeep := keep_of_mem_vertices_contract hx
  have hnot : (some N : Node) ∉ ignorableSet w R (flowGraph w conns ℓ lvl) ℓ lvl := by
    simpa [keepFun] using hkeep
  exact hnot (Finset.mem_union_left _ (Finset.mem_filter.mpr ⟨hmem, hleaf, hpeers⟩))

/-- C2 (witness): port `1` of collection `0` in `w9`, whose only
neighbour `2` shares its parent, is elided from the contracted graph at
boundary level 1. -/
theorem c2_witness :
    1 ∉ vertices (contractedGraph w9 (parentsRel w9 (compSet [(1, 2)] [0])) [(1, 2)]
      lvNine 1) :=
  c2_boundary_leaf_elided w9 (parentsRel w9 (compSet [(1, 2)] [0])) [(1, 2)] lvNine 1 1
    (by decide) (by decide) (by decide)

/-- C2 (counterexample): two parentless leaves `0` and `1` joined by the
edge `(0, 1)` at requested level 0.  Every neighbour of leaf `0` has
exactly the same (empty) recorded parent set as `0` itself, yet `0` is
present in the contracted graph — because the code compares the `[]`
default of `parents.get(comp, [])` against the `None` default of
`parents.get(peer)`, which are unequal.  This refutes the claimed
if-and-only-if. -/
theorem c2_counterexample :
    toposort (parentsRel wFlat (compSet [(0, 1)] [])) = some lvFlat ∧
    nbrs (flowGraph wFlat [(0, 1)] lvFlat 0) 0 = {1} ∧
    parentsOf (parentsRel wFlat (compSet [(0, 1)] [])) (some 0) =
      parentsOf (parentsRel wFlat (compSet [(0, 1)] [])) (some 1) ∧
    runOut wFlat [(0, 1)] [] 0 = some ⟨{(0, 1)}, [], ∅⟩ := by decide

/-- C3: with zero connections the engine does not return an empty output;
`outs, ins = zip(*connections)` on line 101 raises `ValueError` because
unpacking `zip()` of nothing fails.  The spec requires this case to be
guarded explicitly; the code has no such guard. -/
theorem c3_empty_connections_error :
    runModel wFlat [] [] 1 =
      Except.error "ValueError: not enough values to unpack (expected 2, got 0)" := rfl

/-- C4: virtual-completion edges are synthesized exactly for the port
collections sitting at `levels[maxdepth]`: `(x, y)` is an extra link iff
some collection at that level has `x` among its in-ports and `y` among its
out-ports with `x ≠ y` — in particular no virtual edge has identical
source and sink. -/
theorem c4_virtual_completion (w : World) (ℓ : List (Finset Node)) (lvl x y : Nat) :
    (x, y) ∈ extraLinks w ℓ lvl ↔
      ∃ c, (some c : Node) ∈ levelAt ℓ lvl ∧ w.isColl c = true ∧
        x ∈ w.ins c ∧ y ∈ w.outs c ∧ x ≠ y := by
  unfold extraLinks
  rw [Finset.mem_biUnion]
  constructor
  · rintro ⟨oc, hoc, hmem⟩
    rcases oc with - | c
    · simp [vcOf] at hmem
    · simp only [vcOf] at hmem
      by_cases hc : w.isColl c
      · rw [if_pos hc] at hmem
        rcases Finset.mem_filter.mp hmem with ⟨hp, hne⟩
        rcases Finset.mem_product.mp hp with ⟨hx, hy⟩
        exact ⟨c, hoc, hc, List.mem_toFinset.mp hx, List.mem_toFinset.mp hy, hne⟩
      · rw [if_neg hc] at hmem
        simp at hmem
  · rintro ⟨c, hc, hcoll, hx, hy, hne⟩
    refine ⟨some c, hc, ?_⟩
    simp only [vcOf]
    rw [if_pos hcoll]
    exact Finset.mem_filter.mpr
      ⟨Finset.mem_product.mpr ⟨List.mem_toFinset.mpr hx, List.mem_toFinset.mpr hy⟩, hne⟩

/-- C4 (witness): in the scenario forest at boundary level 1, the virtual
edge `(3, 4)` of collection `B = 1` is synthesized, while `(5, 5)` (the
self-pair of collection `C = 2`) is not. -/
theorem c4_witness :
    (3, 4) ∈ extraLinks wScen lvScen 1 ∧ (5, 5) ∉ extraLinks wScen lvScen 1 := by
  constructor
  · exact (c4_virtual_completion wScen lvScen 1 3 4).mpr
      ⟨1, by decide, by decide, by decide, by decide, by decide⟩
  · intro hmem
    rcases (c4_virtual_completion wScen lvScen 1 5 5).mp hmem with ⟨c, -, -, -, -, hne⟩
    exact hne rfl

/-- C5 (amended): a cycle in the recorded parent links (a nonempty set of
nodes each depending on another member) makes the run abort with the
toposort error; but a child with two different recorded parents does NOT
abort the run (see the counterexample). -/
theorem c5_cycle_aborts (w : World) (conns : List (Nat × Nat)) (comps : List Nat)
    (req : Nat) (S : Finset Node) (hS : S.Nonempty)
    (hcyc : ∀ x ∈ S, ∃ y ∈ S, y ≠ x ∧ (x, y) ∈ parentsRel w (compSet conns comps))
    (hconns : conns ≠ []) :
    runModel w conns comps req = Except.error "ValueError: Cyclic dependencies exist" := by
  unfold runModel
  rw [if_neg hconns, toposort_cycle hS hcyc]

/-- C5 (witness): two collections `0` and `1` each containing the other
form a parent-link cycle; the run aborts. -/
theorem c5_witness :
    runModel wCyc [(2, 3)] [0, 1] 7 =
      Except.error "ValueError: Cyclic dependencies exist" :=
  c5_cycle_aborts wCyc [(2, 3)] [0, 1] 7 {some 0, some 1} (by decide) (by decide)
    (by decide)

/-- C5 (counterexample): in `wConf` the leaf `2` has the two different
recorded parents `0` and `1`, yet the computation does not fail — it
levels the multi-parent child and produces output. -/
theorem c5_counterexample :
    parentsOf (parentsRel wConf (compSet [(2, 3)] [0, 1])) (some 2) = {some 0, some 1} ∧
    (runModel wConf [(2, 3)] [0, 1] 1).toOption.isSome = true := by decide

/-- C6: when the requested level is at least the number of levels, it is
clamped (to `len(levels)`, past the deepest index) without error, and the
resulting contracted graph is the original deduplicated edge set. -/
theorem c6_clamp_identity (w : World) (conns : List (Nat × Nat)) (comps : List Nat)
    (req : Nat) (ℓ : List (Finset Node))
    (hconns : conns ≠ [])
    (ht : toposort (parentsRel w (compSet conns comps)) = some ℓ)
    (hreq : ℓ.length ≤ req) :
    effLevel req ℓ = ℓ.length ∧
    (runModel w conns comps req).map Output.graph = Except.ok conns.toFinset := by
  have hlvl : effLevel req ℓ = ℓ.length := min_eq_right hreq
  refine ⟨hlvl, ?_⟩
  unfold runModel
  rw [if_neg hconns, ht]
  show Except.ok (assemble w conns comps req ℓ).graph = Except.ok conns.toFinset
  refine congrArg Except.ok ?_
  show contractedGraph w (parentsRel w (compSet conns comps)) conns ℓ (effLevel req ℓ) =
    conns.toFinset
  rw [hlvl]
  have hextra : extraLinks w ℓ ℓ.length = ∅ := by
    unfold extraLinks levelAt
    rw [List.getD_eq_default _ _ le_rfl]
    exact Finset.biUnion_empty
  have hflow : flowGraph w conns ℓ ℓ.length = conns.toFinset := by
    unfold flowGraph
    rw [hextra, Finset.union_empty]
  have hign : ∀ g, ignorableSet w (parentsRel w (compSet conns comps)) g ℓ ℓ.length = ∅ := by
    intro g
    unfold ignorableSet filterIgnorable levelAt
    rw [List.getD_eq_default _ _ le_rfl, List.drop_eq_nil_of_le (by omega)]
    simp [unionAll]
  unfold contractedGraph
  rw [hflow, hign]
  exact contract_of_all_kept (fun x _ => by simp [keepFun])

/-- C6 (witness): on the flat input `(0, 1)` with two levels and requested
level 5, the run succeeds and returns the original edge set. -/
theorem c6_witness :
    (runModel wFlat [(0, 1)] [] 5).map Output.graph =
      Except.ok (([(0, 1)] : List (Nat × Nat)).toFinset) :=
  (c6_clamp_identity wFlat [(0, 1)] [] 5 lvFlat (by decide) (by decide) (by decide)).2

/-- C7: at requested level 0, every vertex surviving leveling plus
contraction has no recorded parent — only roots remain, however deep the
forest is. -/
theorem c7_level_zero_only_roots (w : World) (conns : List (Nat × Nat))
    (comps : List Nat) (ℓ : List (Finset Node))
    (ht : toposort (parentsRel w (compSet conns comps)) = some ℓ) (x : Nat)
    (hx : x ∈ vertices (contractedGraph w (parentsRel w (compSet conns comps)) conns ℓ
      (effLevel 0 ℓ))) :
    parentsOf (parentsRel w (compSet conns comps)) (some x) = ∅ := by
  by_contra hne
  rcases Finset.nonempty_iff_ne_empty.mpr hne with ⟨y, hy⟩
  have hxy : ((some x : Node), y) ∈ parentsRel w (compSet conns comps) := mem_succs.mp hy
  have hyx : y ≠ (some x : Node) := parentsRel_ne hxy
  have hdrop : (some x : Node) ∈ unionAll (ℓ.drop 1) := toposort_dep ht hxy hyx
  have h0 : effLevel 0 ℓ = 0 := min_eq_left (Nat.zero_le _)
  rw [h0] at hx
  unfold contractedGraph at hx
  have hkeep := keep_of_mem_vertices_contract hx
  have hnot : (some x : Node) ∉ ignorableSet w (parentsRel w (compSet conns comps))
      (flowGraph w conns ℓ 0) ℓ 0 := by
    simpa [keepFun] using hkeep
  exact hnot (Finset.mem_union_right _ hdrop)

/-- C7 (witness): on the flat input `(0, 1)` at requested level 0, vertex
`0` survives and indeed has no recorded parent. -/
theorem c7_witness :
    parentsOf (parentsRel wFlat (compSet [(0, 1)] [])) (some 0) = ∅ :=
  c7_level_zero_only_roots wFlat [(0, 1)] [] lvFlat (by decide) 0 (by decide)

/-- C8: the LOD contraction is idempotent: applying `contract` with the
same keep predicate to its own output changes nothing, so re-running the
contractor on its own output with the same maxdepth yields the same
graph. -/
theorem c8_contract_idempotent (g : Finset (Nat × Nat)) (keep : Nat → Bool) :
    contract (contract g keep) keep = contract g keep :=
  contract_of_all_kept (fun _ hx => keep_of_mem_vertices_contract hx)

/-- C9 (amended): a cluster is created for collection `c` iff `c` sits at
some level shallower than the boundary and at least one of its members is
a connection endpoint — elision plays no role in the decision, so a
cluster whose every member port is elided is still created (and emitted
empty, see the counterexample). -/
theorem c9_created_iff_endpoint (w : World) (conns : List (Nat × Nat))
    (comps : List Nat) (ℓ : List (Finset Node)) (lvl c : Nat)
    (visible : Finset Nat) (ign : Finset Node)
    (ht : toposort (parentsRel w (compSet conns comps)) = some ℓ) :
    c ∈ (buildClusters w conns comps visible ign ℓ lvl).1.map Cl.owner ↔
      ∃ s ∈ ℓ.take lvl, (some c : Node) ∈ s ∧ w.isColl c = true ∧
        subcomps w c ∩ visible ≠ ∅ := by
  unfold buildClusters clusterOrder
  rw [foldl_processColl_owners]
  simp only [List.map_nil, List.nil_append]
  rw [List.mem_filter]
  constructor
  · rintro ⟨hmem, hdec⟩
    rcases List.mem_flatMap.mp hmem with ⟨s, hs, hcs⟩
    have hs' : s ∈ ℓ.take lvl := List.mem_reverse.mp hs
    unfold collsOfLevel at hcs
    rcases List.mem_filter.mp hcs with ⟨-, hcond⟩
    rw [Bool.and_eq_true, decide_eq_true_eq] at hcond
    exact ⟨s, hs', hcond.1, hcond.2, of_decide_eq_true hdec⟩
  · rintro ⟨s, hs, hcs, hcoll, hports⟩
    refine ⟨?_, decide_eq_true hports⟩
    apply List.mem_flatMap.mpr
    refine ⟨s, List.mem_reverse.mpr hs, ?_⟩
    unfold collsOfLevel
    apply List.mem_filter.mpr
    refine ⟨List.mem_dedup.mpr ?_, ?_⟩
    · have hsl : s ∈ ℓ := List.take_subset _ _ hs
      apply masterList_covers
      have huni : unionAll ℓ = vertices (parentsRel w (compSet conns comps)) := by
        unfold toposort at ht
        exact topoGo_some_union _ _ _ ht
      have hv : (some c : Node) ∈ vertices (parentsRel w (compSet conns comps)) := by
        rw [← huni]
        exact subset_unionAll hsl hcs
      rw [parentsRel] at hv
      exact mem_vertices_reverse.mp hv
    · rw [Bool.and_eq_true, decide_eq_true_eq]
      exact ⟨hcs, hcoll⟩

/-- C9 (witness): collection `0` of `w9` (member ports `1`, `2`, both
connection endpoints) gets a cluster created at boundary level 1. -/
theorem c9_witness :
    0 ∈ (buildClusters w9 [(1, 2)] [0] (visiblePorts [(1, 2)]) ∅ lvNine 1).1.map Cl.owner :=
  (c9_created_iff_endpoint w9 [(1, 2)] [0] lvNine 1 0 (visiblePorts [(1, 2)]) ∅
    (by decide)).mpr ⟨{some 0}, by decide, by decide, by decide, by decide⟩

/-- C9 (counterexample): in `w9` (collection `0` whose two ports are wired
only to each other) at level 1, both ports are elided, yet the run emits
the cluster for `0` — with no member nodes and no child clusters.  An
empty cluster is emitted, refuting "empty clusters are omitted
entirely". -/
theorem c9_counterexample :
    runOut w9 [(1, 2)] [0] 1 = some ⟨∅, [⟨0, ∅, ∅⟩], {0}⟩ := by decide

/-- C10: `_strip_angle_brackets` terminates on every finite string (the
total well-founded definition witnesses this), is idempotent, and its
result never both starts with a left and ends with a right angle
bracket. -/
theorem c10_strip_idempotent (s : List Char) :
    stripAngleBrackets (stripAngleBrackets s) = stripAngleBrackets s ∧
      ¬((stripAngleBrackets s).head? = some '<' ∧
        (stripAngleBrackets s).getLast? = some '>') :=
  ⟨stripAngleBrackets_eq_self (stripAngleBrackets_not_bracketed s),
    stripAngleBrackets_not_bracketed s⟩

end Confviz
